import Mathlib

/-!
# Verification of the helm manifest partitioner and readiness predicates

This file is a shallow embedding, in Lean 4, of the manifest-partitioning code
(`pkg/manifest`, given as `src/unnamed/part_000` and `src/unnamed/part_001`) and
of the readiness predicates of `pkg/kube/wait.go` of the `k8s.io/helm` fork
under verification.

Conventions of the embedding:

* Go strings are Lean `String`s; where the Go code walks bytes we walk the
  character list `String.data`.  The string helpers (`strings.TrimSpace`,
  `strings.ToLower`, `strings.HasPrefix`, `strings.HasSuffix`, `path.Base`,
  `path.Dir`, `strconv.Atoi`) are re-implemented below on `List Char`, with the
  ASCII fragment of the Unicode behaviour (all inputs relevant here are ASCII).
* Go maps iterated by `range` are association lists in iteration order.
* Machine integers: Go `int` is 64-bit on the platforms this module targets;
  `int32(...)` conversion is two's-complement truncation, written on `Int` with
  an explicit modulus (`toInt32`).
* Fallible code returns `Option`.
* Code of the repository that is *not* under `src/` (the `ghodss/yaml` head
  parser, `releaseutil.SplitManifests`, the `pkg/hooks` lookup tables, the
  kind sorter) is either taken as a parameter of the embedding (parser,
  splitter, lookup tables — they are external collaborators per the spec) or
  modelled from the spec (marked `Modelled from the spec:` in the docstring).
-/

/-! ## String and path helpers (ASCII models of the Go library functions) -/

/-- `unicode.IsSpace` restricted to ASCII, the alphabet of the inputs handled
here (Go additionally treats U+0085 and U+00A0 and other Unicode space classes
as space). -/
def goIsSpace (c : Char) : Bool :=
  c = ' ' || c = '\t' || c = '\n' || c = '\x0B' || c = '\x0C' || c = '\r'

/-- `strings.TrimSpace` on a character list: drop spaces from both ends. -/
def trimChars (l : List Char) : List Char :=
  ((l.dropWhile goIsSpace).reverse.dropWhile goIsSpace).reverse

/-- `strings.TrimSpace`. -/
def trimSpace (s : String) : String :=
  ⟨trimChars s.data⟩

/-- ASCII case folding of one character, the ASCII fragment of
`unicode.ToLower`. -/
def lowerChar (c : Char) : Char :=
  if 'A' ≤ c && c ≤ 'Z' then Char.ofNat (c.toNat + 32) else c

/-- `strings.ToLower` (ASCII fragment). -/
def toLowerS (s : String) : String :=
  ⟨s.data.map lowerChar⟩

/-- `strings.HasPrefix`. -/
def hasPrefixS (s pre : String) : Bool :=
  pre.data.isPrefixOf s.data

/-- `strings.HasSuffix`. -/
def hasSuffixS (s suffix : String) : Bool :=
  suffix.data.isSuffixOf s.data

/-- Split a list at every occurrence of the element `sep`; the result always
has one more part than there are separators.  Instantiated at `Char` this is
Go's `strings.Split` for a one-character separator. -/
def splitOnElem {α : Type} [DecidableEq α] (sep : α) : List α → List (List α)
  | [] => [[]]
  | x :: xs =>
    match splitOnElem sep xs with
    | [] => [[x]]
    | h :: t => if x = sep then [] :: h :: t else (x :: h) :: t

/-- Join parts with a single separator element between them (inverse of
`splitOnElem`). -/
def joinSep {α : Type} (sep : α) : List (List α) → List α
  | [] => []
  | [l] => l
  | l :: l' :: ls => l ++ sep :: joinSep sep (l' :: ls)

/-- `path.Base`: strip trailing slashes, then keep everything after the last
slash; `""` gives `"."` and an all-slash path gives `"/"`. -/
def baseChars (l : List Char) : List Char :=
  if l = [] then ['.']
  else
    let l1 := (l.reverse.dropWhile (· = '/')).reverse
    let l2 := (l1.reverse.takeWhile (· ≠ '/')).reverse
    if l1 = [] then ['/'] else if l2 = [] then ['/'] else l2

/-- `path.Base`. -/
def pathBase (p : String) : String :=
  ⟨baseChars p.data⟩

/-- `path.Clean`, in its component-stack formulation: split the path into
`/`-separated components, drop `"."` and empty components, let `".."` pop a
previous component (or accumulate at the front of a relative path, or vanish at
the root of a rooted path), and reassemble. -/
def cleanChars (l : List Char) : List Char :=
  let rooted := l.head? = some '/'
  let comps := (splitOnElem '/' l).filter (· ≠ [])
  let stack := comps.foldl (fun st c =>
    if c = ['.'] then st
    else if c = ['.', '.'] then
      match st with
      | t :: rest => if t ≠ ['.', '.'] then rest else c :: t :: rest
      | [] => if rooted then [] else [c]
    else c :: st) []
  let body := joinSep '/' stack.reverse
  if rooted then '/' :: body
  else if body = [] then ['.']
  else body

/-- `path.Dir`: everything up to and including the final slash, cleaned. -/
def pathDir (p : String) : String :=
  ⟨cleanChars ((p.data.reverse.dropWhile (· ≠ '/')).reverse)⟩

/-- `path.Match("*/templates/NOTES.txt", p)`, specialised to that fixed
pattern: `*` matches any (possibly empty) run of non-`/` characters, the rest
is literal.  The pattern is well formed, so the `error` result of `path.Match`
is always `nil`. -/
def matchNotesGlob (p : String) : Bool :=
  ("/templates/NOTES.txt".data.isSuffixOf p.data)
    && ((p.data.take (p.data.length - 20)).all (fun c => c ≠ '/'))

/-- `strconv.Atoi` = `strconv.ParseInt(s, 10, 0)` with 64-bit `int`: an
optional sign followed by at least one decimal digit and nothing else, with the
value required to fit in a signed 64-bit integer (`none` models a non-nil
error, including `ErrRange`). -/
def atoi (s : String) : Option Int :=
  let core : List Char → Option Int := fun ds =>
    if ds = [] || !ds.all Char.isDigit then none
    else some (ds.foldl (fun a c => a * 10 + ((c.toNat : Int) - ('0'.toNat : Int))) 0)
  let signed : Option Int :=
    match s.data with
    | [] => none
    | '+' :: ds => core ds
    | '-' :: ds => (core ds).map (fun n => -n)
    | ds => core ds
  match signed with
  | none => none
  | some v => if v < -(2 ^ 63) || v > 2 ^ 63 - 1 then none else some v

/-- Go's `int32(n)` conversion of a (64-bit) integer: two's-complement
truncation to 32 bits. -/
def toInt32 (n : Int) : Int :=
  (n + 2 ^ 31) % 2 ^ 32 - 2 ^ 31

/-! ## The data model of the partitioner -/

/-- Modelled from the spec: `releaseutil.SimpleHead.Metadata` (the
`releaseutil` package is not under `src/`).  Per spec §3/§9 the parsed head
carries `metadata.name` and the annotation mapping; a `nil` annotation map and
an empty one are distinguished from each other (`Option`) exactly as in Go. -/
structure HeadMetadata where
  name : String
  annotations : Option (List (String × String))
deriving DecidableEq, Repr

/-- Modelled from the spec: `releaseutil.SimpleHead` (not under `src/`); the
minimal parsed head of one YAML document — kind, apiVersion and optional
metadata (spec §3: "required substructure (e.g., metadata) may be entirely
absent"). -/
structure SimpleHead where
  version : String
  kind : String
  metadata : Option HeadMetadata
deriving DecidableEq, Repr

/-- `release.Hook` restricted to the fields the partitioner writes.  The event
and delete-policy enum types are parameters (`E`, `D`): their values come from
the external `pkg/hooks` tables. -/
structure Hook (E D : Type) where
  name : String
  kind : String
  path : String
  manifest : String
  events : List E
  weight : Int
  deletePolicies : List D
deriving DecidableEq, Repr

/-- `manifest.Manifest`: a generic (non-hook) manifest. -/
structure Manifest where
  name : String
  content : String
  head : SimpleHead
deriving DecidableEq, Repr

/-- Modelled from the spec: the annotation keys of `pkg/hooks` (not under
`src/`); spec §6 treats the exact key strings as external configuration, and
the upstream constants are used here. -/
def hookAnno : String := "helm.sh/hook"

/-- The weight annotation key (`pkg/hooks.HookWeightAnno`). -/
def hookWeightAnno : String := "helm.sh/hook-weight"

/-- The delete-policy annotation key (`pkg/hooks.HookDeleteAnno`). -/
def hookDeleteAnno : String := "helm.sh/hook-delete-policy"

/-- The comma-separated Go map read `entry.Metadata.Annotations[k]` with its
`ok` flag: `none` when the metadata or the annotation map is absent or the key
is missing. -/
def annoLookup (entry : SimpleHead) (k : String) : Option String :=
  entry.metadata.bind fun md =>
    md.annotations.bind fun l =>
      (l.find? (fun kv => kv.1 = k)).map (fun kv => kv.2)

/-- `hasAnyAnnotation` of the source: `false` iff the metadata is absent, the
annotation map is `nil`, or the annotation map is empty. -/
def hasAnyAnno (entry : SimpleHead) : Bool :=
  match entry.metadata with
  | none => false
  | some md =>
    match md.annotations with
    | none => false
    | some l => !l.isEmpty

/-- The comma-split/trim/lowercase normalisation applied to both the hook-type
and the delete-policy annotation values (`strings.Split(v, ",")` then
`strings.ToLower(strings.TrimSpace(tok))` per token). -/
def tokensOf (v : String) : List String :=
  (splitOnElem ',' v.data).map (fun t => toLowerS ⟨trimChars t⟩)

/-- The Go map read with a default: `entry.Metadata.Annotations[k]` yields `""`
when the key is absent.  (`calculateHookWeight` performs this read only after
`hasAnyAnnotation` succeeded, so the `Option` defaults are never exercised on
the paths the source takes.) -/
def annoValueD (entry : SimpleHead) (k : String) : String :=
  (annoLookup entry k).getD ""

/-- `calculateHookWeight`: `strconv.Atoi` of the weight annotation value, `0`
on error, truncated by the `int32(hw)` conversion. -/
def calculateHookWeight (entry : SimpleHead) : Int :=
  let hws := annoValueD entry hookWeightAnno
  let hw := (atoi hws).getD 0
  toInt32 hw

/-- The accumulating `result` struct of the source (`hooks` and `generic`). -/
structure SortResult (E D : Type) where
  hooks : List (Hook E D)
  generic : List Manifest
deriving DecidableEq, Repr

/-! ## Hook classification (`manifestFile.sort`)

The head parser (`ghodss/yaml`, external), the hook-event table
(`hooks.Events`) and the delete-policy table (`hooks.DeletePolices`) are
parameters of the embedding: per spec §1 "the static tables mapping hook-name
strings to event enums and delete-policy strings to enums are assumed as
externally supplied configuration", and the parser is an external collaborator
(spec §2).  A `none` result of `parseHead` is a non-nil `yaml.Unmarshal`
error. -/

/-- The event-resolution loop of `sort`: the `for`-loop over the split tokens
that appends resolved events to `h.Events` and breaks with
`isUnknownHook = true` (modelled as `none`) at the first token missing from the
table. -/
def resolveEventsLoop {E : Type} (eventsTab : String → Option E) :
    List String → List E → Option (List E)
  | [], acc => some acc
  | t :: rest, acc =>
    match eventsTab t with
    | none => none
    | some e => resolveEventsLoop eventsTab rest (acc ++ [e])

/-- The delete-policy loop: `operateAnnotationValues` with the callback that
appends a resolved policy to `h.DeletePolicies` and merely logs an unresolved
token. -/
def resolveDeletePoliciesLoop {D : Type} (delTab : String → Option D) :
    List String → List D → List D
  | [], acc => acc
  | t :: rest, acc =>
    match delTab t with
    | some p => resolveDeletePoliciesLoop delTab rest (acc ++ [p])
    | none => resolveDeletePoliciesLoop delTab rest acc

/-- The delete policies of a hook entry: `operateAnnotationValues(entry,
hooks.HookDeleteAnno, ...)` — nothing happens when the annotation is absent. -/
def deletePoliciesOf {D : Type} (delTab : String → Option D)
    (entry : SimpleHead) : List D :=
  match annoLookup entry hookDeleteAnno with
  | none => []
  | some dps => resolveDeletePoliciesLoop delTab (tokensOf dps) []

/-- `manifestFile.sort`: classify each document of one file in order, threading
the `result` accumulator; a head-parse failure aborts immediately with the
accumulator as mutated so far (`"YAML parse error on <path>"`).  The
`entry.Metadata.Name` read is guarded in Go by `hasAnyAnnotation`; the `getD`
defaults are never exercised on the paths the source takes. -/
def sortEntries {E D : Type} (eventsTab : String → Option E)
    (delTab : String → Option D) (parseHead : String → Option SimpleHead)
    (filePath : String) : List String → SortResult E D →
    SortResult E D × Option String
  | [], acc => (acc, none)
  | m :: rest, acc =>
    match parseHead m with
    | none => (acc, some ("YAML parse error on " ++ filePath))
    | some entry =>
      if !hasAnyAnno entry then
        sortEntries eventsTab delTab parseHead filePath rest
          { acc with generic := acc.generic ++ [⟨filePath, m, entry⟩] }
      else
        match annoLookup entry hookAnno with
        | none =>
          sortEntries eventsTab delTab parseHead filePath rest
            { acc with generic := acc.generic ++ [⟨filePath, m, entry⟩] }
        | some hookTypes =>
          match resolveEventsLoop eventsTab (tokensOf hookTypes) [] with
          | none =>
            -- isUnknownHook: the document is dropped entirely (only logged)
            sortEntries eventsTab delTab parseHead filePath rest acc
          | some evs =>
            sortEntries eventsTab delTab parseHead filePath rest
              { acc with hooks := acc.hooks ++
                  [{ name := (entry.metadata.map HeadMetadata.name).getD ""
                     kind := entry.kind
                     path := filePath
                     manifest := m
                     events := evs
                     weight := calculateHookWeight entry
                     deletePolicies := deletePoliciesOf delTab entry }] }

/-! ## The kind sorter -/

/-- `manifest.SortOrder`. -/
inductive SortOrder where
  | installOrder : SortOrder
  | uninstallOrder : SortOrder
deriving DecidableEq, Repr

/-- Stable insertion: `x` is placed before the first element that is not
strictly smaller, so elements equal in the order keep their original relative
positions. -/
def insertStable (lt : Manifest → Manifest → Bool) (x : Manifest) :
    List Manifest → List Manifest
  | [] => [x]
  | y :: ys => if lt y x then y :: insertStable lt x ys else x :: y :: ys

/-- Stable insertion sort. -/
def stableSortBy (lt : Manifest → Manifest → Bool) :
    List Manifest → List Manifest
  | [] => []
  | x :: xs => insertStable lt x (stableSortBy lt xs)

/-- Modelled from the spec: `sortByKind` (the kind sorter source file is not
under `src/`).  Spec §4.3: a fixed table maps each kind to an integer priority,
lower sorting earlier for `InstallOrder` and the comparison reversed for
`UninstallOrder`; ties preserve discovery order (stable sort).  The priority
table is external configuration and is a parameter (`kindPrio`), with unknown
kinds already mapped to the documented default by the parameter. -/
def sortByKind (kindPrio : String → Nat) (order : SortOrder)
    (ms : List Manifest) : List Manifest :=
  match order with
  | .installOrder =>
    stableSortBy (fun a b => kindPrio a.head.kind < kindPrio b.head.kind) ms
  | .uninstallOrder =>
    stableSortBy (fun a b => kindPrio b.head.kind < kindPrio a.head.kind) ms

/-! ## `Partition` — the two versions

`src/unnamed/part_001` returns the notes as a chart-name-keyed map,
`src/unnamed/part_000` as the single parent-chart notes string.  The file map
is an association list in iteration order; the notes map is an association
list in which the most recent insertion stands first (Go map assignment =
last write wins on lookup). -/

/-- `notesFileSuffix`. -/
def notesFileSuffix : String := "NOTES.txt"

/-- The accumulator of the `part_001` `Partition` loop. -/
structure PartitionAcc (E D : Type) where
  hooks : List (Hook E D)
  generic : List Manifest
  notes : List (String × String)
deriving DecidableEq, Repr

/-- The result quadruple of the `part_001` `Partition`. -/
structure PartitionOut (E D : Type) where
  hooks : List (Hook E D)
  generic : List Manifest
  notes : List (String × String)
  err : Option String
deriving DecidableEq, Repr

/-- The per-file loop of the `part_001` `Partition`: skip partials (base name
starting `_`) and blank files, record `NOTES.txt` files under
`path.Base(path.Dir(path.Dir(filePath)))`, and run `manifestFile.sort` on
everything else, aborting on its error with the results accumulated so far. -/
def partitionAux {E D : Type} (eventsTab : String → Option E)
    (delTab : String → Option D) (parseHead : String → Option SimpleHead)
    (splitMans : String → List String) :
    List (String × String) → PartitionAcc E D → PartitionAcc E D × Option String
  | [], acc => (acc, none)
  | (filePath, c) :: rest, acc =>
    if hasPrefixS (pathBase filePath) "_" then
      partitionAux eventsTab delTab parseHead splitMans rest acc
    else if trimSpace c = "" then
      partitionAux eventsTab delTab parseHead splitMans rest acc
    else if hasSuffixS filePath notesFileSuffix then
      partitionAux eventsTab delTab parseHead splitMans rest
        { acc with notes := (pathBase (pathDir (pathDir filePath)), c) :: acc.notes }
    else
      match sortEntries eventsTab delTab parseHead filePath (splitMans c)
          ⟨acc.hooks, acc.generic⟩ with
      | (r, some e) => ({ hooks := r.hooks, generic := r.generic, notes := acc.notes }, some e)
      | (r, none) =>
        partitionAux eventsTab delTab parseHead splitMans rest
          { hooks := r.hooks, generic := r.generic, notes := acc.notes }

/-- `Partition` of `src/unnamed/part_001`: on success the generic bucket is
passed through `sortByKind`; the early error returns bypass the sorter. -/
def Partition {E D : Type} (eventsTab : String → Option E)
    (delTab : String → Option D) (parseHead : String → Option SimpleHead)
    (splitMans : String → List String) (kindPrio : String → Nat)
    (order : SortOrder) (files : List (String × String)) : PartitionOut E D :=
  match partitionAux eventsTab delTab parseHead splitMans files ⟨[], [], []⟩ with
  | (acc, none) => ⟨acc.hooks, sortByKind kindPrio order acc.generic, acc.notes, none⟩
  | (acc, some e) => ⟨acc.hooks, acc.generic, acc.notes, some e⟩

/-- The result quadruple of the `part_000` `Partition` (notes as one string). -/
structure PartitionOutS (E D : Type) where
  hooks : List (Hook E D)
  generic : List Manifest
  notes : String
  err : Option String
deriving DecidableEq, Repr

/-- The per-file loop of the `part_000` `Partition`: identical to `part_001`
except that a `NOTES.txt` file only sets the single notes string when it
matches `*/templates/NOTES.txt` (the parent-chart glob); the glob is well
formed so `path.Match` never errors and the error return inside that branch is
dead code. -/
def partitionAuxS {E D : Type} (eventsTab : String → Option E)
    (delTab : String → Option D) (parseHead : String → Option SimpleHead)
    (splitMans : String → List String) :
    List (String × String) → List (Hook E D) × List Manifest × String →
    (List (Hook E D) × List Manifest × String) × Option String
  | [], acc => (acc, none)
  | (filePath, c) :: rest, (hs, gs, notes) =>
    if hasPrefixS (pathBase filePath) "_" then
      partitionAuxS eventsTab delTab parseHead splitMans rest (hs, gs, notes)
    else if trimSpace c = "" then
      partitionAuxS eventsTab delTab parseHead splitMans rest (hs, gs, notes)
    else if hasSuffixS filePath notesFileSuffix then
      partitionAuxS eventsTab delTab parseHead splitMans rest
        (hs, gs, if matchNotesGlob filePath then c else notes)
    else
      match sortEntries eventsTab delTab parseHead filePath (splitMans c) ⟨hs, gs⟩ with
      | (r, some e) => ((r.hooks, r.generic, notes), some e)
      | (r, none) =>
        partitionAuxS eventsTab delTab parseHead splitMans rest (r.hooks, r.generic, notes)

/-- `Partition` of `src/unnamed/part_000`. -/
def PartitionS {E D : Type} (eventsTab : String → Option E)
    (delTab : String → Option D) (parseHead : String → Option SimpleHead)
    (splitMans : String → List String) (kindPrio : String → Nat)
    (order : SortOrder) (files : List (String × String)) : PartitionOutS E D :=
  match partitionAuxS eventsTab delTab parseHead splitMans files ([], [], "") with
  | ((hs, gs, notes), none) => ⟨hs, sortByKind kindPrio order gs, notes, none⟩
  | ((hs, gs, notes), some e) => ⟨hs, gs, notes, some e⟩

/-- `FlattenManifests`: write `"\n---\n# Source: " ++ name ++ "\n"` and then
the content, for each manifest in order. -/
def FlattenManifests (ms : List Manifest) : String :=
  ms.foldl (fun b m => b ++ "\n---\n# Source: " ++ m.name ++ "\n" ++ m.content) ""

/-! ## The manifest splitter (spec-modelled) -/

/-- The `"---"` document-separator line. -/
def dashesLine : List Char := ['-', '-', '-']

/-- Strip the leading `"# Source: ..."` comment line (through its newline) off
one split document, if present. -/
def stripSrcChars (d : List Char) : List Char :=
  if "# Source: ".data.isPrefixOf d then (d.dropWhile (fun c => c ≠ '\n')).drop 1
  else d

/-- Modelled from the spec: `releaseutil.SplitManifests` is not under `src/`.
Per spec §2 the splitter divides one file's raw text into its `---`-separated
YAML documents, and per spec §6 the flattened release-manifest stream (each
document preceded by a `# Source: <path>` comment line and a `---` separator)
is parsed back by source-comment, so the leading `# Source:` comment line is
metadata rather than document content.  The model: cut the text into lines,
group the lines into documents at each exact `"---"` separator line, drop
documents that are blank after trimming, and strip the leading `# Source:`
comment line of each document. -/
def splitManifests (text : String) : List String :=
  let lines := splitOnElem '\n' text.data
  let docs := (splitOnElem dashesLine lines).map (joinSep '\n')
  ((docs.filter (fun d => trimChars d ≠ [])).map (fun d => (⟨stripSrcChars d⟩ : String)))

/-! ## The readiness predicates of `pkg/kube/wait.go` -/

/-- `v1.PodCondition`, restricted to the fields `isPodReady` reads; the
condition type and status are the string types of the k8s API. -/
structure PodCondition where
  condType : String
  status : String
deriving DecidableEq, Repr

/-- `v1.PodStatus` restricted to `Conditions`. -/
structure PodStatus where
  conditions : List PodCondition
deriving DecidableEq, Repr

/-- `v1.Pod` restricted to `Status`. -/
structure Pod where
  status : PodStatus
deriving DecidableEq, Repr

/-- `v1.PodReady`. -/
def podReadyCond : String := "Ready"

/-- `v1.ConditionTrue`. -/
def conditionTrue : String := "True"

/-- `isPodReady`: the `&pod.Status != nil` guard of the source is always true
(address of a struct field); the `len(...) > 0` guard and the scan are modelled
as written. -/
def isPodReady (pod : Pod) : Bool :=
  if pod.status.conditions.length > 0 then
    pod.status.conditions.any (fun cnd =>
      cnd.condType = podReadyCond && cnd.status = conditionTrue)
  else false

/-- `Client.podsReady`: the loop that returns `false` at the first pod that is
not ready (the log call is ignored). -/
def podsReady : List Pod → Bool
  | [] => true
  | pod :: rest => if !isPodReady pod then false else podsReady rest

/-- `v1.LoadBalancerIngress` (fields unused by the check, kept for fidelity). -/
structure LoadBalancerIngress where
  ip : String
  hostname : String
deriving DecidableEq, Repr

/-- `v1.Service` restricted to the fields `servicesReady` reads.  The ingress
slice is `Option`al: `none` is a nil Go slice (what `Ingress == nil` tests),
`some []` a non-nil empty one — Go distinguishes the two. -/
structure Service where
  specType : String
  clusterIP : String
  ingress : Option (List LoadBalancerIngress)
deriving DecidableEq, Repr

/-- `v1.ServiceTypeExternalName`. -/
def serviceTypeExternalName : String := "ExternalName"

/-- `v1.ServiceTypeLoadBalancer`. -/
def serviceTypeLoadBalancer : String := "LoadBalancer"

/-- `v1.ClusterIPNone`. -/
def clusterIPNone : String := "None"

/-- `Client.servicesReady`: ExternalName services are skipped; a service with
`ClusterIP != "None" && ClusterIP == ""` is not ready; a LoadBalancer service
with `Ingress == nil` is not ready. -/
def servicesReady : List Service → Bool
  | [] => true
  | s :: rest =>
    if s.specType = serviceTypeExternalName then servicesReady rest
    else if s.clusterIP ≠ clusterIPNone ∧ s.clusterIP = "" then false
    else if s.specType = serviceTypeLoadBalancer ∧ s.ingress = none then false
    else servicesReady rest

/-! ## Derived data of the round trip, claim-side definitions and concrete fixtures -/

/-- The `# Source: <name>` comment line, as characters. -/
def srcLineOf (name : String) : List Char := "# Source: ".data ++ name.data

/-- The characters `FlattenManifests` writes for one manifest. -/
def chunkData (m : Manifest) : List Char :=
  '\n' :: dashesLine ++ '\n' :: srcLineOf m.name ++ '\n' :: m.content.data

/-- The characters `FlattenManifests` writes for a list of manifests. -/
def flatData : List Manifest → List Char
  | [] => []
  | m :: ms => chunkData m ++ flatData ms

/-- A splittable manifest: its name has no newline and its content has no
exact `"---"` line, so the flattened stream can be cut back apart at the
separators `FlattenManifests` wrote. -/
def splittable (m : Manifest) : Prop :=
  '\n' ∉ m.name.data ∧ dashesLine ∉ splitOnElem '\n' m.content.data

instance (m : Manifest) : Decidable (splittable m) := by
  unfold splittable
  infer_instance

/-! ## Concrete fixtures used by the witnesses

A small concrete instantiation of the parameters: event/delete-policy tables
over `Nat`, a head parser mapping a few fixed document strings to heads, and a
splitter mapping one fixed string to two documents. -/

/-- A concrete hook-event table. -/
def fixEvents : String → Option Nat := fun s =>
  if s = "pre-install" then some 1 else if s = "post-install" then some 2 else none

/-- A concrete delete-policy table. -/
def fixDel : String → Option Nat := fun s =>
  if s = "hook-succeeded" then some 1 else none

/-- A head whose hook annotation has an unresolvable token. -/
def fixHeadDrop : SimpleHead :=
  ⟨"v1", "Job", some ⟨"hd", some [(hookAnno, "pre-install,bogus")]⟩⟩

/-- A head that resolves to a hook (with duplicate events, a delete policy
with an unresolvable token, and weight `-5`). -/
def fixHeadHook : SimpleHead :=
  ⟨"v1", "Job", some ⟨"hh",
    some [(hookAnno, " Pre-Install ,pre-install,post-install"),
      (hookDeleteAnno, "hook-succeeded,bogus"), (hookWeightAnno, "-5")]⟩⟩

/-- A hook head whose weight annotation exceeds 32 bits but fits in 64. -/
def fixHeadBigW : SimpleHead :=
  ⟨"v1", "Job", some ⟨"hw",
    some [(hookAnno, "pre-install"), (hookWeightAnno, "2147483648")]⟩⟩

/-- A hook head with a non-numeric weight annotation. -/
def fixHeadAbcW : SimpleHead :=
  ⟨"v1", "Job", some ⟨"ha",
    some [(hookAnno, "pre-install"), (hookWeightAnno, "abc")]⟩⟩

/-- A head with absent metadata. -/
def fixHeadPlain : SimpleHead := ⟨"v1", "Pod", none⟩

/-- A head with an empty (but present) annotation map. -/
def fixHeadEmptyAnnos : SimpleHead := ⟨"v1", "Secret", some ⟨"se", some []⟩⟩

/-- A head with annotations but no hook-type key. -/
def fixHeadOtherAnno : SimpleHead :=
  ⟨"v1", "ConfigMap", some ⟨"cm", some [("app", "x")]⟩⟩

/-- The concrete head parser of the fixtures. -/
def fixParse : String → Option SimpleHead := fun s =>
  if s = "dropdoc" then some fixHeadDrop
  else if s = "hookdoc" then some fixHeadHook
  else if s = "bigw" then some fixHeadBigW
  else if s = "abcw" then some fixHeadAbcW
  else if s = "plain" then some fixHeadPlain
  else if s = "emptyannos" then some fixHeadEmptyAnnos
  else if s = "otheranno" then some fixHeadOtherAnno
  else none

/-- The concrete splitter of the fixtures: one designated file content splits
into a good document followed by an unparsable one. -/
def fixSplit : String → List String := fun c =>
  if c = "twodocs" then ["plain", "BAD"] else [c]

/-- The ingress entries of a service (`nil` and empty both have none). -/
def serviceIngressEntries (s : Service) : List LoadBalancerIngress :=
  match s.ingress with
  | none => []
  | some l => l

/-- The claim's reading of C3, formalised word for word: every non-ExternalName
service must have a non-empty-or-`"None"` clusterIP and, when of type
LoadBalancer, at least one ingress entry. -/
def servicesReadyClaim (svcs : List Service) : Prop :=
  ∀ s ∈ svcs, s.specType ≠ serviceTypeExternalName →
    ((s.clusterIP ≠ "" ∨ s.clusterIP = clusterIPNone) ∧
      (s.specType = serviceTypeLoadBalancer → serviceIngressEntries s ≠ []))

/-- A LoadBalancer service whose ingress slice is non-nil but empty. -/
def svcEmptyIngress : Service := ⟨"LoadBalancer", "10.0.0.1", some []⟩

/-- A base-10 signed integer parse with no range restriction: the claim's
"parsed as a base-10 signed integer" (mathematical integer). -/
def intOfDecimal (s : String) : Option Int :=
  let core : List Char → Option Int := fun ds =>
    if ds = [] || !ds.all Char.isDigit then none
    else some (ds.foldl (fun a c => a * 10 + ((c.toNat : Int) - ('0'.toNat : Int))) 0)
  match s.data with
  | [] => none
  | '+' :: ds => core ds
  | '-' :: ds => (core ds).map (fun n => -n)
  | ds => core ds

/-- The weight C8 claims: the annotation value as a mathematical base-10
signed integer, `0` when absent or not an integer. -/
def claimWeightOf (v : String) : Int :=
  (intOfDecimal v).getD 0

/-- A document whose parsed head classifies it generic: the head parses and
has no hook-type annotation. -/
def parsesGeneric (parseHead : String → Option SimpleHead) (c : String) : Bool :=
  match parseHead c with
  | none => false
  | some hd => annoLookup hd hookAnno = none

/-! ## Lemmas about the generic list helpers -/

theorem splitOnElem_ne_nil {α : Type} [DecidableEq α] (sep : α) (l : List α) :
    splitOnElem sep l ≠ [] := by
  cases l with
  | nil => simp [splitOnElem]
  | cons x xs =>
    simp only [splitOnElem]
    cases h : splitOnElem sep xs with
    | nil => simp
    | cons h t =>
      by_cases hx : x = sep <;> simp [hx]

theorem splitOnElem_append_sep {α : Type} [DecidableEq α] (sep : α) (a b : List α) :
    splitOnElem sep (a ++ sep :: b) = splitOnElem sep a ++ splitOnElem sep b := by
  induction a with
  | nil =>
    simp only [List.nil_append, splitOnElem]
    cases hb : splitOnElem sep b with
    | nil => exact absurd hb (splitOnElem_ne_nil sep b)
    | cons h t => simp [splitOnElem]
  | cons x a' ih =>
    simp only [List.cons_append, splitOnElem, List.append_eq]
    rw [ih]
    cases ha : splitOnElem sep a' with
    | nil => exact absurd ha (splitOnElem_ne_nil sep a')
    | cons h t =>
      by_cases hx : x = sep <;> simp [hx]

theorem splitOnElem_of_not_mem {α : Type} [DecidableEq α] {sep : α} {l : List α}
    (h : sep ∉ l) : splitOnElem sep l = [l] := by
  induction l with
  | nil => rfl
  | cons x xs ih =>
    simp only [List.mem_cons, not_or] at h
    simp only [splitOnElem, ih h.2]
    simp [Ne.symm h.1]

theorem joinSep_splitOnElem {α : Type} [DecidableEq α] (sep : α) (l : List α) :
    joinSep sep (splitOnElem sep l) = l := by
  induction l with
  | nil => rfl
  | cons x xs ih =>
    simp only [splitOnElem]
    cases hs : splitOnElem sep xs with
    | nil => exact absurd hs (splitOnElem_ne_nil sep xs)
    | cons h t =>
      rw [hs] at ih
      by_cases hx : x = sep
      · subst hx
        simpa [joinSep] using ih
      · simp only [if_neg hx]
        cases t with
        | nil => simpa [joinSep] using ih
        | cons t' ts => simpa [joinSep] using ih

theorem trimChars_eq_nil_iff (l : List Char) :
    trimChars l = [] ↔ ∀ c ∈ l, goIsSpace c := by
  unfold trimChars
  rw [List.reverse_eq_nil_iff, List.dropWhile_eq_nil_iff]
  simp only [List.mem_reverse]
  constructor
  · intro h c hc
    rw [← List.takeWhile_append_dropWhile (p := goIsSpace) (l := l)] at hc
    rcases List.mem_append.mp hc with h1 | h2
    · exact List.mem_takeWhile_imp h1
    · exact h c h2
  · intro h x hx
    exact h x ((List.dropWhile_sublist goIsSpace).subset hx)

theorem resolveEventsLoop_none_of_exists {E : Type} (eventsTab : String → Option E)
    {toks : List String} (h : ∃ t ∈ toks, eventsTab t = none) (acc : List E) :
    resolveEventsLoop eventsTab toks acc = none := by
  induction toks generalizing acc with
  | nil => simp at h
  | cons t rest ih =>
    obtain ⟨u, hu, hnone⟩ := h
    rcases List.mem_cons.mp hu with rfl | hmem
    · simp [resolveEventsLoop, hnone]
    · cases he : eventsTab t with
      | none => simp [resolveEventsLoop, he]
      | some e => simpa [resolveEventsLoop, he] using ih ⟨u, hmem, hnone⟩ _

theorem resolveEventsLoop_some_of_all {E : Type} (eventsTab : String → Option E)
    {toks : List String} (h : ∀ t ∈ toks, (eventsTab t).isSome) (acc : List E) :
    ∃ evs, resolveEventsLoop eventsTab toks acc = some (acc ++ evs) ∧
      evs.length = toks.length ∧ ∀ p ∈ toks.zip evs, eventsTab p.1 = some p.2 := by
  induction toks generalizing acc with
  | nil => exact ⟨[], by simp [resolveEventsLoop]⟩
  | cons t rest ih =>
    have ht := h t (List.mem_cons_self t rest)
    cases he : eventsTab t with
    | none => rw [he] at ht; simp at ht
    | some e =>
      obtain ⟨evs, h1, h2, h3⟩ := ih (fun u hu => h u (List.mem_cons_of_mem t hu)) (acc ++ [e])
      refine ⟨e :: evs, ?_, by simp [h2], ?_⟩
      · simp [resolveEventsLoop, he, h1]
      · intro p hp
        rcases List.mem_cons.mp (by simpa using hp) with rfl | hmem
        · exact he
        · exact h3 p (by simpa using hmem)

theorem resolveDeletePoliciesLoop_eq {D : Type} (delTab : String → Option D)
    (toks : List String) (acc : List D) :
    resolveDeletePoliciesLoop delTab toks acc = acc ++ toks.filterMap delTab := by
  induction toks generalizing acc with
  | nil => simp [resolveDeletePoliciesLoop]
  | cons t rest ih =>
    cases hd : delTab t with
    | none => simp [resolveDeletePoliciesLoop, hd, ih]
    | some p => simp [resolveDeletePoliciesLoop, hd, ih]

theorem sortEntries_append {E D : Type} (eventsTab : String → Option E)
    (delTab : String → Option D) (parseHead : String → Option SimpleHead)
    (filePath : String) (l1 l2 : List String) (acc : SortResult E D) :
    sortEntries eventsTab delTab parseHead filePath (l1 ++ l2) acc =
      match sortEntries eventsTab delTab parseHead filePath l1 acc with
      | (a, none) => sortEntries eventsTab delTab parseHead filePath l2 a
      | (a, some e) => (a, some e) := by
  induction l1 generalizing acc with
  | nil => simp [sortEntries]
  | cons m rest ih =>
    simp only [List.cons_append, sortEntries]
    cases parseHead m with
    | none => simp
    | some entry =>
      by_cases ha : hasAnyAnno entry
      · simp only [ha]
        cases hl : annoLookup entry hookAnno with
        | none => simpa using ih _
        | some hookTypes =>
          cases hre : resolveEventsLoop eventsTab (tokensOf hookTypes) [] with
          | none => simp only [hre]; exact ih _
          | some evs => simp only [hre]; exact ih _
      · simp only [Bool.not_eq_true] at ha
        simp only [ha]
        simpa using ih _

theorem sortEntries_all_generic {E D : Type} (eventsTab : String → Option E)
    (delTab : String → Option D) (parseHead : String → Option SimpleHead)
    (filePath : String) (entries : List String) (acc : SortResult E D)
    (h : ∀ m ∈ entries, ∃ hd, parseHead m = some hd ∧ annoLookup hd hookAnno = none) :
    sortEntries eventsTab delTab parseHead filePath entries acc =
      ({ hooks := acc.hooks,
         generic := acc.generic ++ entries.map (fun m =>
           ⟨filePath, m, (parseHead m).getD ⟨"", "", none⟩⟩) }, none) := by
  induction entries generalizing acc with
  | nil => simp [sortEntries]
  | cons m rest ih =>
    obtain ⟨hd, hp, hlk⟩ := h m (List.mem_cons_self m rest)
    have hrest := fun u hu => h u (List.mem_cons_of_mem m hu)
    simp only [sortEntries, hp]
    by_cases ha : hasAnyAnno hd
    · simp only [ha, Bool.not_true, Bool.false_eq_true, if_false, hlk]
      rw [ih _ hrest]
      simp [hp]
    · simp only [Bool.not_eq_true] at ha
      simp only [ha, Bool.not_false, if_true]
      rw [ih _ hrest]
      simp [hp]

theorem insertStable_perm (lt : Manifest → Manifest → Bool) (x : Manifest)
    (l : List Manifest) : (insertStable lt x l).Perm (x :: l) := by
  induction l with
  | nil => simp [insertStable]
  | cons y ys ih =>
    by_cases h : lt y x
    · simp only [insertStable, h, if_true]
      exact ((ih.cons y).trans (List.Perm.swap x y ys))
    · simp [insertStable, h]

theorem stableSortBy_perm (lt : Manifest → Manifest → Bool) (l : List Manifest) :
    (stableSortBy lt l).Perm l := by
  induction l with
  | nil => simp [stableSortBy]
  | cons x xs ih =>
    exact (insertStable_perm lt x (stableSortBy lt xs)).trans (ih.cons x)

theorem sortByKind_perm (kindPrio : String → Nat) (order : SortOrder)
    (ms : List Manifest) : (sortByKind kindPrio order ms).Perm ms := by
  cases order <;> exact stableSortBy_perm _ ms

theorem partitionAux_append {E D : Type} (eventsTab : String → Option E)
    (delTab : String → Option D) (parseHead : String → Option SimpleHead)
    (splitMans : String → List String) (l1 l2 : List (String × String))
    (acc : PartitionAcc E D) :
    partitionAux eventsTab delTab parseHead splitMans (l1 ++ l2) acc =
      match partitionAux eventsTab delTab parseHead splitMans l1 acc with
      | (a, none) => partitionAux eventsTab delTab parseHead splitMans l2 a
      | (a, some e) => (a, some e) := by
  induction l1 generalizing acc with
  | nil => simp [partitionAux]
  | cons f rest ih =>
    obtain ⟨filePath, c⟩ := f
    simp only [List.cons_append, partitionAux]
    by_cases h1 : hasPrefixS (pathBase filePath) "_"
    · simp only [h1, if_true]; exact ih _
    · simp only [h1, Bool.false_eq_true, if_false]
      by_cases h2 : trimSpace c = ""
      · simp only [h2, if_pos rfl]; exact ih _
      · simp only [if_neg h2]
        by_cases h3 : hasSuffixS filePath notesFileSuffix
        · simp only [h3, if_true]; exact ih _
        · simp only [h3, Bool.false_eq_true, if_false]
          cases hs : sortEntries eventsTab delTab parseHead filePath (splitMans c)
              ⟨acc.hooks, acc.generic⟩ with
          | mk r e =>
            cases e with
            | none => simp only [hs]; exact ih _
            | some err => simp only [hs]

/-! ## The flatten / split round trip -/

theorem flattenManifests_data (ms : List Manifest) :
    (FlattenManifests ms).data = flatData ms := by
  suffices h : ∀ (b : String) ms,
      ((ms.foldl (fun b m => b ++ "\n---\n# Source: " ++ m.name ++ "\n" ++ m.content) b).data
        = b.data ++ flatData ms) by
    simpa using h "" ms
  intro b ms
  induction ms generalizing b with
  | nil => simp [flatData]
  | cons m rest ih =>
    simp only [List.foldl_cons, ih, flatData, chunkData, srcLineOf, dashesLine]
    simp [String.data_append]

theorem srcLineOf_ne_dashes (name : String) : srcLineOf name ≠ dashesLine := by
  have h : "# Source: ".data = ['#', ' ', 'S', 'o', 'u', 'r', 'c', 'e', ':', ' '] := rfl
  simp [srcLineOf, h, dashesLine]

theorem newline_not_mem_srcLineOf {name : String} (h : '\n' ∉ name.data) :
    '\n' ∉ srcLineOf name := by
  have hp : "# Source: ".data = ['#', ' ', 'S', 'o', 'u', 'r', 'c', 'e', ':', ' '] := rfl
  simp [srcLineOf, hp, h]

theorem lines_flatData (ms : List Manifest) (c : List Char)
    (hn : ∀ m ∈ ms, '\n' ∉ m.name.data) :
    splitOnElem '\n' (c ++ flatData ms) =
      splitOnElem '\n' c ++
        (ms.map (fun m =>
          [dashesLine, srcLineOf m.name] ++ splitOnElem '\n' m.content.data)).flatten := by
  induction ms generalizing c with
  | nil => simp [flatData]
  | cons m rest ih =>
    have hm := hn m (List.mem_cons_self m rest)
    have hrest := fun u hu => hn u (List.mem_cons_of_mem m hu)
    have hassoc : c ++ flatData (m :: rest) =
        c ++ '\n' :: (dashesLine ++ '\n' ::
          (srcLineOf m.name ++ '\n' :: (m.content.data ++ flatData rest))) := by
      simp [flatData, chunkData]
    rw [hassoc, splitOnElem_append_sep, splitOnElem_append_sep, splitOnElem_append_sep,
      ih m.content.data hrest,
      splitOnElem_of_not_mem (by decide : '\n' ∉ dashesLine),
      splitOnElem_of_not_mem (newline_not_mem_srcLineOf hm)]
    simp

theorem docs_of_lines (ms : List Manifest) (g : List (List Char))
    (hd : ∀ m ∈ ms, dashesLine ∉ splitOnElem '\n' m.content.data) :
    splitOnElem dashesLine (g ++
        (ms.map (fun m =>
          [dashesLine, srcLineOf m.name] ++ splitOnElem '\n' m.content.data)).flatten) =
      splitOnElem dashesLine g ++
        ms.map (fun m => srcLineOf m.name :: splitOnElem '\n' m.content.data) := by
  induction ms generalizing g with
  | nil => simp
  | cons m rest ih =>
    have hm := hd m (List.mem_cons_self m rest)
    have hrest := fun u hu => hd u (List.mem_cons_of_mem m hu)
    have hassoc : g ++ (((m :: rest).map (fun m =>
          [dashesLine, srcLineOf m.name] ++ splitOnElem '\n' m.content.data)).flatten) =
        g ++ dashesLine :: ((srcLineOf m.name :: splitOnElem '\n' m.content.data) ++
          ((rest.map (fun m =>
            [dashesLine, srcLineOf m.name] ++ splitOnElem '\n' m.content.data)).flatten)) := by
      simp
    have hnm : dashesLine ∉ (srcLineOf m.name :: splitOnElem '\n' m.content.data) := by
      simp only [List.mem_cons, not_or]
      exact ⟨Ne.symm (srcLineOf_ne_dashes m.name), hm⟩
    rw [hassoc, splitOnElem_append_sep, ih _ hrest, splitOnElem_of_not_mem hnm]
    simp

theorem dropWhile_until_newline (a b : List Char) (h : '\n' ∉ a) :
    (a ++ '\n' :: b).dropWhile (fun c => c ≠ '\n') = '\n' :: b := by
  induction a with
  | nil => simp
  | cons x a' ih =>
    simp only [List.mem_cons, not_or] at h
    have hx : ¬(x = '\n') := fun e => h.1 e.symm
    simp only [List.cons_append, List.dropWhile_cons]
    rw [if_pos (by simp [hx])]
    simpa using ih h.2

theorem mk_data_eq (s : String) : (⟨s.data⟩ : String) = s := by
  cases s
  rfl

theorem isPrefixOf_self_append (l r : List Char) : l.isPrefixOf (l ++ r) = true := by
  induction l with
  | nil => simp [List.isPrefixOf]
  | cons x xs ih => simp [List.isPrefixOf, ih]

theorem joinSep_cons_split (x l : List Char) :
    joinSep '\n' (x :: splitOnElem '\n' l) = x ++ '\n' :: l := by
  cases hs : splitOnElem '\n' l with
  | nil => exact absurd hs (splitOnElem_ne_nil _ l)
  | cons hh tt =>
    have hj := joinSep_splitOnElem '\n' l
    rw [hs] at hj
    simp only [joinSep]
    rw [hj]

theorem stripSrcChars_srcLine (n : String) (c : List Char) (hn : '\n' ∉ n.data) :
    stripSrcChars (srcLineOf n ++ '\n' :: c) = c := by
  unfold stripSrcChars
  have he : srcLineOf n ++ '\n' :: c = "# Source: ".data ++ (n.data ++ '\n' :: c) := by
    simp [srcLineOf]
  rw [if_pos (by rw [he]; exact isPrefixOf_self_append _ _)]
  rw [dropWhile_until_newline _ _ (newline_not_mem_srcLineOf hn)]
  rfl

theorem trim_doc_ne_nil (n : String) (c : List Char) :
    trimChars (srcLineOf n ++ '\n' :: c) ≠ [] := by
  intro h
  have hmem : '#' ∈ srcLineOf n ++ '\n' :: c := by
    have : srcLineOf n = '#' :: (" Source: ".data ++ n.data) := rfl
    rw [this]
    simp
  have := (trimChars_eq_nil_iff _).mp h '#' hmem
  simp [goIsSpace] at this

theorem docs_stage (ms : List Manifest) (hn : ∀ m ∈ ms, '\n' ∉ m.name.data) :
    List.map (fun d => ((⟨stripSrcChars d⟩ : String)))
      (List.filter (fun d => decide (trimChars d ≠ []))
        (List.map (fun m => srcLineOf m.name ++ '\n' :: m.content.data) ms)) =
      ms.map (fun m => m.content) := by
  induction ms with
  | nil => rfl
  | cons m rest ih =>
    have hm := hn m (List.mem_cons_self m rest)
    have hrest := fun u hu => hn u (List.mem_cons_of_mem m hu)
    simp only [List.map_cons, List.filter_cons]
    rw [if_pos (by simpa using trim_doc_ne_nil m.name m.content.data)]
    simp only [List.map_cons, stripSrcChars_srcLine m.name m.content.data hm,
      mk_data_eq, ih hrest]

theorem splitManifests_flattenManifests (ms : List Manifest)
    (h : ∀ m ∈ ms, splittable m) :
    splitManifests (FlattenManifests ms) = ms.map (fun m => m.content) := by
  unfold splitManifests
  rw [flattenManifests_data]
  have hlines := lines_flatData ms [] (fun m hm => (h m hm).1)
  simp only [List.nil_append] at hlines
  have hsp : splitOnElem '\n' ([] : List Char) = [([] : List Char)] := rfl
  rw [hsp] at hlines
  have hdocs := docs_of_lines ms [[]] (fun m hm => (h m hm).2)
  rw [splitOnElem_of_not_mem (by decide : dashesLine ∉ [([] : List Char)])] at hdocs
  simp only [hlines]
  rw [hdocs]
  have hmapjoin : List.map (joinSep '\n')
      (ms.map (fun m => srcLineOf m.name :: splitOnElem '\n' m.content.data)) =
      ms.map (fun m => srcLineOf m.name ++ '\n' :: m.content.data) := by
    rw [List.map_map]
    simp only [Function.comp_def, joinSep_cons_split]
  simp only [List.map_append, hmapjoin, List.filter_append]
  have hhead : List.filter (fun d => decide (trimChars d ≠ []))
      (List.map (joinSep '\n') [[([] : List Char)]]) = [] := rfl
  rw [hhead]
  simp only [List.map_nil, List.nil_append]
  exact docs_stage ms (fun m hm => (h m hm).1)

/-! ## Further supporting lemmas -/

theorem hasAnyAnno_of_lookup {entry : SimpleHead} {k v : String}
    (h : annoLookup entry k = some v) : hasAnyAnno entry = true := by
  unfold annoLookup at h
  unfold hasAnyAnno
  cases hm : entry.metadata with
  | none => rw [hm] at h; simp at h
  | some md =>
    rw [hm] at h
    simp only [Option.some_bind] at h
    cases ha : md.annotations with
    | none => rw [ha] at h; simp at h
    | some l =>
      rw [ha] at h
      simp only [Option.some_bind] at h
      cases l with
      | nil => simp at h
      | cons kv t => simp [ha]

theorem trimSpace_eq_empty_iff (s : String) :
    trimSpace s = "" ↔ trimChars s.data = [] := by
  constructor
  · intro h
    have := congrArg String.data h
    exact this
  · intro h
    show (⟨trimChars s.data⟩ : String) = ""
    rw [h]

theorem sortEntries_err_none {E D : Type} (eventsTab : String → Option E)
    (delTab : String → Option D) (parseHead : String → Option SimpleHead)
    (filePath : String) (entries : List String) (acc : SortResult E D)
    (h : ∀ m ∈ entries, (parseHead m).isSome) :
    (sortEntries eventsTab delTab parseHead filePath entries acc).2 = none := by
  induction entries generalizing acc with
  | nil => simp [sortEntries]
  | cons m rest ih =>
    have hm := h m (List.mem_cons_self m rest)
    have hrest := fun u hu => h u (List.mem_cons_of_mem m hu)
    cases hp : parseHead m with
    | none => rw [hp] at hm; simp at hm
    | some entry =>
      simp only [sortEntries, hp]
      by_cases ha : hasAnyAnno entry
      · simp only [ha]
        cases hl : annoLookup entry hookAnno with
        | none => simpa using ih _ hrest
        | some ht =>
          cases hre : resolveEventsLoop eventsTab (tokensOf ht) [] with
          | none => simp only [hre]; exact ih _ hrest
          | some evs => simp only [hre]; exact ih _ hrest
      · simp only [Bool.not_eq_true] at ha
        simp only [ha]
        simpa using ih _ hrest

theorem partitionAux_err_none {E D : Type} (eventsTab : String → Option E)
    (delTab : String → Option D) (parseHead : String → Option SimpleHead)
    (splitMans : String → List String) (files : List (String × String))
    (acc : PartitionAcc E D)
    (h : ∀ pc ∈ files, hasPrefixS (pathBase pc.1) "_" = false →
      trimSpace pc.2 ≠ "" → hasSuffixS pc.1 notesFileSuffix = false →
      ∀ m ∈ splitMans pc.2, (parseHead m).isSome) :
    (partitionAux eventsTab delTab parseHead splitMans files acc).2 = none := by
  induction files generalizing acc with
  | nil => simp [partitionAux]
  | cons f rest ih =>
    obtain ⟨filePath, c⟩ := f
    have hf := h (filePath, c) (List.mem_cons_self _ rest)
    have hrest := fun u hu => h u (List.mem_cons_of_mem _ hu)
    simp only [partitionAux]
    by_cases h1 : hasPrefixS (pathBase filePath) "_"
    · simp only [h1, if_true]; exact ih _ hrest
    · simp only [h1, Bool.false_eq_true, if_false]
      by_cases h2 : trimSpace c = ""
      · simp only [h2, if_pos rfl]; exact ih _ hrest
      · simp only [if_neg h2]
        by_cases h3 : hasSuffixS filePath notesFileSuffix
        · simp only [h3, if_true]; exact ih _ hrest
        · simp only [h3, Bool.false_eq_true, if_false]
          cases hs : sortEntries eventsTab delTab parseHead filePath (splitMans c)
              ⟨acc.hooks, acc.generic⟩ with
          | mk r e =>
            have herr := sortEntries_err_none eventsTab delTab parseHead filePath
              (splitMans c) ⟨acc.hooks, acc.generic⟩
              (hf (by simpa using h1) h2 (by simpa using h3))
            rw [hs] at herr
            simp only at herr
            subst herr
            simp only [hs]
            exact ih _ hrest

/-! ## Claim C9 -/

theorem isPodReady_iff (pod : Pod) :
    isPodReady pod = true ↔
      ∃ cnd ∈ pod.status.conditions,
        cnd.condType = podReadyCond ∧ cnd.status = conditionTrue := by
  unfold isPodReady
  cases hc : pod.status.conditions with
  | nil => simp
  | cons c rest => simp [List.any_eq_true]

/-- C9: `podsReady` is true iff every pod in the list has at least one
condition of type `Ready` with status `True`, at any position; a pod with no
conditions is not ready and the empty list is ready (all three read off the
iff). -/
theorem c9_pods_ready (pods : List Pod) :
    podsReady pods = true ↔
      ∀ pod ∈ pods, ∃ cnd ∈ pod.status.conditions,
        cnd.condType = podReadyCond ∧ cnd.status = conditionTrue := by
  induction pods with
  | nil => simp [podsReady]
  | cons pod rest ih =>
    by_cases hp : isPodReady pod = true
    · simp [podsReady, hp, ih]
      intro _
      exact (isPodReady_iff pod).mp hp
    · have hf : isPodReady pod = false := by simpa using hp
      simp only [podsReady, hf, Bool.not_false, if_true]
      constructor
      · intro habs; exact absurd habs (by simp)
      · intro hall
        exact absurd ((isPodReady_iff pod).mpr (hall pod (List.mem_cons_self pod rest))) hp

/-! ## Claim C3 -/

/-- C3 counterexample: the code tests `Ingress == nil`, so a LoadBalancer
service with a present-but-empty ingress list is reported ready although it has
no ingress entry, refuting the claimed iff. -/
theorem c3_counterexample :
    servicesReady [svcEmptyIngress] = true ∧ ¬ servicesReadyClaim [svcEmptyIngress] := by
  constructor
  · decide
  · intro h
    have := h svcEmptyIngress (by simp) (by decide)
    exact absurd (this.2 (by decide)) (by decide)

/-- C3 amended: `servicesReady` is true iff every non-ExternalName service has
a non-empty-or-`"None"` clusterIP and, when of type LoadBalancer, a *present*
(non-nil) ingress list; an empty-but-present ingress list passes. -/
theorem c3_services_ready (svcs : List Service) :
    servicesReady svcs = true ↔
      ∀ s ∈ svcs, s.specType ≠ serviceTypeExternalName →
        ((s.clusterIP ≠ "" ∨ s.clusterIP = clusterIPNone) ∧
          (s.specType = serviceTypeLoadBalancer → s.ingress ≠ none)) := by
  induction svcs with
  | nil => simp [servicesReady]
  | cons s rest ih =>
    simp only [servicesReady]
    by_cases h1 : s.specType = serviceTypeExternalName
    · rw [if_pos h1, ih]
      constructor
      · intro hall u hu
        rcases List.mem_cons.mp hu with rfl | hm
        · intro hne; exact absurd h1 hne
        · exact hall u hm
      · intro hall u hu
        exact hall u (List.mem_cons_of_mem s hu)
    · rw [if_neg h1]
      by_cases h2 : s.clusterIP ≠ clusterIPNone ∧ s.clusterIP = ""
      · rw [if_pos h2]
        constructor
        · intro habs; exact absurd habs (by simp)
        · intro hall
          rcases (hall s (List.mem_cons_self s rest) h1).1 with ha | ha
          · exact (ha h2.2).elim
          · exact (h2.1 ha).elim
      · rw [if_neg h2]
        by_cases h3 : s.specType = serviceTypeLoadBalancer ∧ s.ingress = none
        · rw [if_pos h3]
          constructor
          · intro habs; exact absurd habs (by simp)
          · intro hall
            exact ((hall s (List.mem_cons_self s rest) h1).2 h3.1 h3.2).elim
        · rw [if_neg h3, ih]
          constructor
          · intro hall u hu
            rcases List.mem_cons.mp hu with rfl | hm
            · intro _
              refine ⟨?_, ?_⟩
              · by_cases hc : u.clusterIP = ""
                · right
                  by_contra hne
                  exact h2 ⟨hne, hc⟩
                · left; exact hc
              · intro hlb
                intro hing
                exact h3 ⟨hlb, hing⟩
            · exact hall u hm
          · intro hall u hu
            exact hall u (List.mem_cons_of_mem s hu)

/-! ## Claim C1 -/

/-- C1: hook-event resolution is all-or-nothing.  With the head parsed and the
hook-type annotation present: if any comma-split, trimmed, lowercased token is
missing from the event table the document contributes neither a hook nor a
generic manifest (the accumulator is returned untouched); if every token
resolves, exactly one hook is appended whose event list has one event per
token, in token order (duplicates preserved). -/
theorem c1_hook_events_all_or_nothing {E D : Type} (eventsTab : String → Option E)
    (delTab : String → Option D) (parseHead : String → Option SimpleHead)
    (filePath m : String) (entry : SimpleHead) (ht : String) (acc : SortResult E D)
    (hp : parseHead m = some entry) (hl : annoLookup entry hookAnno = some ht) :
    ((∃ t ∈ tokensOf ht, eventsTab t = none) →
      sortEntries eventsTab delTab parseHead filePath [m] acc = (acc, none)) ∧
    ((∀ t ∈ tokensOf ht, (eventsTab t).isSome) →
      ∃ h1 : Hook E D,
        sortEntries eventsTab delTab parseHead filePath [m] acc =
          ({ hooks := acc.hooks ++ [h1], generic := acc.generic }, none) ∧
        h1.events.length = (tokensOf ht).length ∧
        ∀ p ∈ (tokensOf ht).zip h1.events, eventsTab p.1 = some p.2) := by
  have ha := hasAnyAnno_of_lookup hl
  constructor
  · intro hex
    have hre := resolveEventsLoop_none_of_exists eventsTab hex ([] : List E)
    simp [sortEntries, hp, ha, hl, hre]
  · intro hall
    obtain ⟨evs, hre, hlen, hzip⟩ :=
      resolveEventsLoop_some_of_all eventsTab hall ([] : List E)
    simp only [List.nil_append] at hre
    refine ⟨{ name := (entry.metadata.map HeadMetadata.name).getD ""
              kind := entry.kind
              path := filePath
              manifest := m
              events := evs
              weight := calculateHookWeight entry
              deletePolicies := deletePoliciesOf delTab entry }, ?_, ?_, ?_⟩
    · simp [sortEntries, hp, ha, hl, hre]
    · exact hlen
    · exact hzip

/-- C1 witness: `"pre-install,bogus"` is dropped entirely; a fully resolving
value (with a duplicated event) yields exactly one hook with one event per
token in order. -/
theorem c1_witness :
    ((∃ t ∈ tokensOf "pre-install,bogus", fixEvents t = none) ∧
      sortEntries fixEvents fixDel fixParse "f.yaml" ["dropdoc"] ⟨[], []⟩ =
        (⟨[], []⟩, none)) ∧
    ((∀ t ∈ tokensOf " Pre-Install ,pre-install,post-install", (fixEvents t).isSome) ∧
      ∃ h1 : Hook Nat Nat,
        sortEntries fixEvents fixDel fixParse "f.yaml" ["hookdoc"] ⟨[], []⟩ =
          ({ hooks := [h1], generic := [] }, none) ∧
        h1.events.length = (tokensOf " Pre-Install ,pre-install,post-install").length ∧
        ∀ p ∈ (tokensOf " Pre-Install ,pre-install,post-install").zip h1.events,
          fixEvents p.1 = some p.2) := by
  constructor
  · exact ⟨by decide,
      (c1_hook_events_all_or_nothing fixEvents fixDel fixParse "f.yaml" "dropdoc"
        fixHeadDrop "pre-install,bogus" ⟨[], []⟩ (by decide) (by decide)).1 (by decide)⟩
  · exact ⟨by decide,
      (c1_hook_events_all_or_nothing fixEvents fixDel fixParse "f.yaml" "hookdoc"
        fixHeadHook " Pre-Install ,pre-install,post-install" ⟨[], []⟩
        (by decide) (by decide)).2 (by decide)⟩

/-! ## Claim C2 -/

/-- C2: delete-policy resolution is per-token.  For a document that becomes a
hook (all events resolved) with a delete-policy annotation present, exactly one
hook is appended — no unresolved delete-policy token prevents it — and its
delete policies are the resolvable tokens, in order (`filterMap`: each
unresolved token is individually skipped). -/
theorem c2_delete_policy_per_token {E D : Type} (eventsTab : String → Option E)
    (delTab : String → Option D) (parseHead : String → Option SimpleHead)
    (filePath m : String) (entry : SimpleHead) (ht dps : String) (evs : List E)
    (acc : SortResult E D)
    (hp : parseHead m = some entry) (hl : annoLookup entry hookAnno = some ht)
    (hre : resolveEventsLoop eventsTab (tokensOf ht) [] = some evs)
    (hd : annoLookup entry hookDeleteAnno = some dps) :
    ∃ h1 : Hook E D,
      sortEntries eventsTab delTab parseHead filePath [m] acc =
        ({ hooks := acc.hooks ++ [h1], generic := acc.generic }, none) ∧
      h1.events = evs ∧
      h1.deletePolicies = (tokensOf dps).filterMap delTab := by
  have ha := hasAnyAnno_of_lookup hl
  refine ⟨{ name := (entry.metadata.map HeadMetadata.name).getD ""
            kind := entry.kind
            path := filePath
            manifest := m
            events := evs
            weight := calculateHookWeight entry
            deletePolicies := deletePoliciesOf delTab entry }, ?_, rfl, ?_⟩
  · simp [sortEntries, hp, ha, hl, hre]
  · simp [deletePoliciesOf, hd, resolveDeletePoliciesLoop_eq]

/-- C2 witness: `"hook-succeeded,bogus"` yields one hook carrying exactly the
one resolved policy. -/
theorem c2_witness :
    (∃ h1 : Hook Nat Nat,
      sortEntries fixEvents fixDel fixParse "f.yaml" ["hookdoc"] ⟨[], []⟩ =
        ({ hooks := [h1], generic := [] }, none) ∧
      h1.events = [1, 1, 2] ∧
      h1.deletePolicies = (tokensOf "hook-succeeded,bogus").filterMap fixDel) ∧
    (tokensOf "hook-succeeded,bogus").filterMap fixDel = [1] := by
  refine ⟨c2_delete_policy_per_token fixEvents fixDel fixParse "f.yaml" "hookdoc"
    fixHeadHook " Pre-Install ,pre-install,post-install" "hook-succeeded,bogus"
    [1, 1, 2] ⟨[], []⟩ (by decide) (by decide) (by decide) (by decide), by decide⟩

/-! ## Claim C7 -/

/-- C7: a parsed document with absent metadata, an absent or empty annotation
map, or annotations lacking the hook-type key is classified generic — never
dropped, never a hook — as a `Manifest` whose name is the owning file path and
whose content is the document text (and classification is total, so it cannot
crash). -/
theorem c7_generic_classification {E D : Type} (eventsTab : String → Option E)
    (delTab : String → Option D) (parseHead : String → Option SimpleHead)
    (filePath m : String) (entry : SimpleHead) (rest : List String)
    (acc : SortResult E D)
    (hp : parseHead m = some entry)
    (hgen : hasAnyAnno entry = false ∨ annoLookup entry hookAnno = none) :
    sortEntries eventsTab delTab parseHead filePath (m :: rest) acc =
      sortEntries eventsTab delTab parseHead filePath rest
        { acc with generic := acc.generic ++ [⟨filePath, m, entry⟩] } := by
  rcases hgen with h | h
  · simp [sortEntries, hp, h]
  · by_cases ha : hasAnyAnno entry
    · simp [sortEntries, hp, ha, h]
    · have ha' : hasAnyAnno entry = false := by simpa using ha
      simp [sortEntries, hp, ha']

/-- C7 witness: absent metadata, empty annotation map, and
no-hook-key annotations each classify as one generic manifest named by the
file path with the document as content. -/
theorem c7_witness :
    (sortEntries fixEvents fixDel fixParse "f.yaml" ["plain"] ⟨[], []⟩ =
        sortEntries fixEvents fixDel fixParse "f.yaml" []
          ⟨[], [⟨"f.yaml", "plain", fixHeadPlain⟩]⟩ ∧
      sortEntries fixEvents fixDel fixParse "f.yaml" ["plain"] ⟨[], []⟩ =
        (⟨[], [⟨"f.yaml", "plain", fixHeadPlain⟩]⟩, none)) ∧
    (sortEntries fixEvents fixDel fixParse "f.yaml" ["emptyannos"] ⟨[], []⟩ =
        sortEntries fixEvents fixDel fixParse "f.yaml" []
          ⟨[], [⟨"f.yaml", "emptyannos", fixHeadEmptyAnnos⟩]⟩) ∧
    (sortEntries fixEvents fixDel fixParse "f.yaml" ["otheranno"] ⟨[], []⟩ =
        sortEntries fixEvents fixDel fixParse "f.yaml" []
          ⟨[], [⟨"f.yaml", "otheranno", fixHeadOtherAnno⟩]⟩) := by
  refine ⟨⟨?_, by decide⟩, ?_, ?_⟩
  · exact c7_generic_classification fixEvents fixDel fixParse "f.yaml" "plain"
      fixHeadPlain [] ⟨[], []⟩ (by decide) (by decide)
  · exact c7_generic_classification fixEvents fixDel fixParse "f.yaml" "emptyannos"
      fixHeadEmptyAnnos [] ⟨[], []⟩ (by decide) (by decide)
  · exact c7_generic_classification fixEvents fixDel fixParse "f.yaml" "otheranno"
      fixHeadOtherAnno [] ⟨[], []⟩ (by decide) (by decide)

/-! ## Claim C8 -/

/-- C8 counterexample: the weight annotation `"2147483648"` parses as the
integer 2147483648 (so the claim says the hook's weight is 2147483648), but the
code's `int32(hw)` conversion wraps it to -2147483648. -/
theorem c8_counterexample :
    (sortEntries fixEvents fixDel fixParse "f.yaml" ["bigw"] ⟨[], []⟩).1.hooks.map
        (fun h1 => h1.weight) = [-2147483648] ∧
    claimWeightOf "2147483648" = 2147483648 ∧
    (-2147483648 : Int) ≠ 2147483648 := by
  refine ⟨by decide, by decide, by decide⟩

/-- C8 amended: the hook's weight is the weight annotation value parsed by
`strconv.Atoi` (base-10 signed, 64-bit range) and truncated to 32 bits
two's-complement; it is 0 whenever the annotation is absent or `Atoi` fails
(bad syntax or 64-bit overflow).  `"-5"` still yields -5 and `"abc"` yields
0. -/
theorem c8_weight (E D : Type) (eventsTab : String → Option E)
    (delTab : String → Option D) (parseHead : String → Option SimpleHead)
    (filePath m : String) (entry : SimpleHead) (ht : String) (evs : List E)
    (acc : SortResult E D)
    (hp : parseHead m = some entry) (hl : annoLookup entry hookAnno = some ht)
    (hre : resolveEventsLoop eventsTab (tokensOf ht) [] = some evs) :
    ∃ h1 : Hook E D,
      sortEntries eventsTab delTab parseHead filePath [m] acc =
        ({ hooks := acc.hooks ++ [h1], generic := acc.generic }, none) ∧
      (∀ v, annoLookup entry hookWeightAnno = some v →
        h1.weight = toInt32 ((atoi v).getD 0)) ∧
      (∀ v, annoLookup entry hookWeightAnno = some v → atoi v = none →
        h1.weight = 0) ∧
      (annoLookup entry hookWeightAnno = none → h1.weight = 0) := by
  have ha := hasAnyAnno_of_lookup hl
  refine ⟨{ name := (entry.metadata.map HeadMetadata.name).getD ""
            kind := entry.kind
            path := filePath
            manifest := m
            events := evs
            weight := calculateHookWeight entry
            deletePolicies := deletePoliciesOf delTab entry }, ?_, ?_, ?_, ?_⟩
  · simp [sortEntries, hp, ha, hl, hre]
  · intro v hv
    simp [calculateHookWeight, annoValueD, hv]
  · intro v hv hnone
    simp [calculateHookWeight, annoValueD, hv, hnone, toInt32]
  · intro hnone
    simp [calculateHookWeight, annoValueD, hnone, atoi, toInt32]

/-- C8 witness: weight `"-5"` gives -5, non-numeric `"abc"` gives 0. -/
theorem c8_witness :
    (∃ h1 : Hook Nat Nat,
      sortEntries fixEvents fixDel fixParse "f.yaml" ["hookdoc"] ⟨[], []⟩ =
        ({ hooks := [h1], generic := [] }, none) ∧
      (∀ v, annoLookup fixHeadHook hookWeightAnno = some v →
        h1.weight = toInt32 ((atoi v).getD 0)) ∧
      (∀ v, annoLookup fixHeadHook hookWeightAnno = some v → atoi v = none →
        h1.weight = 0) ∧
      (annoLookup fixHeadHook hookWeightAnno = none → h1.weight = 0)) ∧
    toInt32 ((atoi "-5").getD 0) = -5 ∧
    (sortEntries fixEvents fixDel fixParse "f.yaml" ["abcw"] ⟨[], []⟩).1.hooks.map
      (fun h1 => h1.weight) = [0] ∧
    atoi "abc" = none := by
  refine ⟨c8_weight Nat Nat fixEvents fixDel fixParse "f.yaml" "hookdoc" fixHeadHook
    " Pre-Install ,pre-install,post-install" [1, 1, 2] ⟨[], []⟩
    (by decide) (by decide) (by decide), by decide, by decide, by decide⟩

/-! ## Claim C4 -/

/-- C4: `Partition` fails only on a head-parse error of a non-skipped document
(first conjunct: if every document of every non-skipped, non-notes file
parses, the call succeeds), and such an error aborts the whole call carrying
exactly the hooks and generic manifests accumulated up to the failing document
and the notes accumulated from the files before it (second conjunct; note the
error return bypasses the kind sorter). -/
theorem c4_partition_error_semantics {E D : Type} (eventsTab : String → Option E)
    (delTab : String → Option D) (parseHead : String → Option SimpleHead)
    (splitMans : String → List String) (kindPrio : String → Nat)
    (order : SortOrder) :
    (∀ files : List (String × String),
      (∀ pc ∈ files, hasPrefixS (pathBase pc.1) "_" = false →
        trimSpace pc.2 ≠ "" → hasSuffixS pc.1 notesFileSuffix = false →
        ∀ m ∈ splitMans pc.2, (parseHead m).isSome) →
      (Partition eventsTab delTab parseHead splitMans kindPrio order files).err = none) ∧
    (∀ (pre post : List (String × String)) (filePath c : String)
        (accP : PartitionAcc E D) (mpre : List String) (mbad : String)
        (mpost : List String) (r : SortResult E D),
      partitionAux eventsTab delTab parseHead splitMans pre ⟨[], [], []⟩ = (accP, none) →
      hasPrefixS (pathBase filePath) "_" = false →
      trimSpace c ≠ "" →
      hasSuffixS filePath notesFileSuffix = false →
      splitMans c = mpre ++ mbad :: mpost →
      sortEntries eventsTab delTab parseHead filePath mpre
        ⟨accP.hooks, accP.generic⟩ = (r, none) →
      parseHead mbad = none →
      Partition eventsTab delTab parseHead splitMans kindPrio order
          (pre ++ (filePath, c) :: post) =
        ⟨r.hooks, r.generic, accP.notes, some ("YAML parse error on " ++ filePath)⟩) := by
  constructor
  · intro files hcl
    have h := partitionAux_err_none eventsTab delTab parseHead splitMans files
      ⟨[], [], []⟩ hcl
    cases haux : partitionAux eventsTab delTab parseHead splitMans files ⟨[], [], []⟩ with
    | mk acc e =>
      rw [haux] at h
      simp only at h
      subst h
      simp [Partition, haux]
  · intro pre post filePath c accP mpre mbad mpost r hpre h1 h2 h3 hsplit hmpre hbad
    have hfile : partitionAux eventsTab delTab parseHead splitMans
        ((filePath, c) :: post) accP =
        ({ hooks := r.hooks, generic := r.generic, notes := accP.notes },
          some ("YAML parse error on " ++ filePath)) := by
      simp only [partitionAux, h1, Bool.false_eq_true, if_false, if_neg h2, h3]
      rw [hsplit, sortEntries_append, hmpre]
      simp only [sortEntries, hbad]
    unfold Partition
    rw [partitionAux_append, hpre]
    simp [hfile]

/-- C4 witness: one clean file, then a file whose second document fails to
parse, then a further file; the call returns the generic manifest of the clean
file plus the one good document of the failing file, and the error — the third
file is never reached. -/
theorem c4_witness :
    ((Partition fixEvents fixDel fixParse fixSplit (fun _ => 0) SortOrder.installOrder
        [("a.yaml", "plain")]).err = none) ∧
    (Partition fixEvents fixDel fixParse fixSplit (fun _ => 0) SortOrder.installOrder
        ([("a.yaml", "plain")] ++ ("b.yaml", "twodocs") :: [("c.yaml", "plain")]) =
      ⟨[], [⟨"a.yaml", "plain", fixHeadPlain⟩, ⟨"b.yaml", "plain", fixHeadPlain⟩], [],
        some ("YAML parse error on " ++ "b.yaml")⟩) := by
  refine ⟨(c4_partition_error_semantics fixEvents fixDel fixParse fixSplit
      (fun _ => 0) SortOrder.installOrder).1 [("a.yaml", "plain")] (by decide), ?_⟩
  exact (c4_partition_error_semantics fixEvents fixDel fixParse fixSplit
      (fun _ => 0) SortOrder.installOrder).2
    [("a.yaml", "plain")] [("c.yaml", "plain")] "b.yaml" "twodocs"
    ⟨[], [⟨"a.yaml", "plain", fixHeadPlain⟩], []⟩ ["plain"] "BAD" []
    ⟨[], [⟨"a.yaml", "plain", fixHeadPlain⟩, ⟨"b.yaml", "plain", fixHeadPlain⟩]⟩
    (by decide) (by decide) (by decide) (by decide) (by decide) (by decide) (by decide)

/-! ## Claim C5 -/

/-- C5: every non-skipped file whose path ends in `NOTES.txt` is recorded in
the notes collection under `path.Base(path.Dir(path.Dir(filePath)))` — the path
component two levels above the file — and changes nothing else (so notes files
never become hooks or generic manifests); a parent chart and a child chart each
contributing a `templates/NOTES.txt` yield exactly the two entries keyed
`"parent"` and `"child"`. -/
theorem c5_notes_collection {E D : Type} (eventsTab : String → Option E)
    (delTab : String → Option D) (parseHead : String → Option SimpleHead)
    (splitMans : String → List String) (kindPrio : String → Nat)
    (order : SortOrder) :
    (∀ (filePath c : String) (rest : List (String × String)) (acc : PartitionAcc E D),
      hasPrefixS (pathBase filePath) "_" = false →
      trimSpace c ≠ "" →
      hasSuffixS filePath notesFileSuffix = true →
      partitionAux eventsTab delTab parseHead splitMans ((filePath, c) :: rest) acc =
        partitionAux eventsTab delTab parseHead splitMans rest
          { acc with notes := (pathBase (pathDir (pathDir filePath)), c) :: acc.notes }) ∧
    (∀ n1 n2 : String, trimSpace n1 ≠ "" → trimSpace n2 ≠ "" →
      Partition eventsTab delTab parseHead splitMans kindPrio order
          [("parent/templates/NOTES.txt", n1),
           ("parent/charts/child/templates/NOTES.txt", n2)] =
        ⟨[], [], [("child", n2), ("parent", n1)], none⟩) := by
  have hstep : ∀ (filePath c : String) (rest : List (String × String))
      (acc : PartitionAcc E D),
      hasPrefixS (pathBase filePath) "_" = false →
      trimSpace c ≠ "" →
      hasSuffixS filePath notesFileSuffix = true →
      partitionAux eventsTab delTab parseHead splitMans ((filePath, c) :: rest) acc =
        partitionAux eventsTab delTab parseHead splitMans rest
          { acc with notes := (pathBase (pathDir (pathDir filePath)), c) :: acc.notes } := by
    intro filePath c rest acc h1 h2 h3
    simp only [partitionAux, h1, Bool.false_eq_true, if_false, if_neg h2, h3, if_true]
  refine ⟨hstep, ?_⟩
  intro n1 n2 h1 h2
  have e1 : pathBase (pathDir (pathDir "parent/templates/NOTES.txt")) = "parent" := by
    decide
  have e2 : pathBase (pathDir (pathDir "parent/charts/child/templates/NOTES.txt")) =
      "child" := by decide
  have g1a : hasPrefixS (pathBase "parent/templates/NOTES.txt") "_" = false := by decide
  have g1c : hasSuffixS "parent/templates/NOTES.txt" notesFileSuffix = true := by decide
  have g2a : hasPrefixS (pathBase "parent/charts/child/templates/NOTES.txt") "_" = false := by
    decide
  have g2c : hasSuffixS "parent/charts/child/templates/NOTES.txt" notesFileSuffix = true := by
    decide
  unfold Partition
  rw [hstep _ _ _ _ g1a h1 g1c, hstep _ _ _ _ g2a h2 g2c, e1, e2]
  have hsk : sortByKind kindPrio order ([] : List Manifest) = [] := by
    cases order <;> rfl
  simp [partitionAux, hsk]

/-- C5 witness: the parent/child example with concrete notes contents, plus
the single-step form on a concrete child-chart notes path. -/
theorem c5_witness :
    (Partition fixEvents fixDel fixParse fixSplit (fun _ => 0) SortOrder.installOrder
        [("parent/templates/NOTES.txt", "notes of parent"),
         ("parent/charts/child/templates/NOTES.txt", "notes of child")] =
      ⟨[], [], [("child", "notes of child"), ("parent", "notes of parent")], none⟩) ∧
    (partitionAux fixEvents fixDel fixParse fixSplit
        [("app/templates/NOTES.txt", "hello")] ⟨[], [], []⟩ =
      partitionAux fixEvents fixDel fixParse fixSplit []
        ⟨[], [], [(pathBase (pathDir (pathDir "app/templates/NOTES.txt")), "hello")]⟩) ∧
    pathBase (pathDir (pathDir "app/templates/NOTES.txt")) = "app" := by
  refine ⟨(c5_notes_collection fixEvents fixDel fixParse fixSplit (fun _ => 0)
      SortOrder.installOrder).2 "notes of parent" "notes of child"
      (by decide) (by decide), ?_, by decide⟩
  exact (c5_notes_collection fixEvents fixDel fixParse fixSplit (fun _ => 0)
      SortOrder.installOrder).1 "app/templates/NOTES.txt" "hello" [] ⟨[], [], []⟩
      (by decide) (by decide) (by decide)

/-! ## Claim C10 -/

theorem partitionAux_agree {E D : Type} (eventsTab : String → Option E)
    (delTab : String → Option D) (parseHead : String → Option SimpleHead)
    (splitMans : String → List String) (files : List (String × String))
    (hs : List (Hook E D)) (gs : List Manifest)
    (n1 : List (String × String)) (n0 : String) :
    (partitionAux eventsTab delTab parseHead splitMans files ⟨hs, gs, n1⟩).1.hooks =
      (partitionAuxS eventsTab delTab parseHead splitMans files (hs, gs, n0)).1.1 ∧
    (partitionAux eventsTab delTab parseHead splitMans files ⟨hs, gs, n1⟩).1.generic =
      (partitionAuxS eventsTab delTab parseHead splitMans files (hs, gs, n0)).1.2.1 ∧
    (partitionAux eventsTab delTab parseHead splitMans files ⟨hs, gs, n1⟩).2 =
      (partitionAuxS eventsTab delTab parseHead splitMans files (hs, gs, n0)).2 := by
  induction files generalizing hs gs n1 n0 with
  | nil => exact ⟨rfl, rfl, rfl⟩
  | cons f rest ih =>
    obtain ⟨filePath, c⟩ := f
    simp only [partitionAux, partitionAuxS]
    by_cases h1 : hasPrefixS (pathBase filePath) "_"
    · simp only [h1, if_true]
      exact ih hs gs n1 n0
    · simp only [h1, Bool.false_eq_true, if_false]
      by_cases h2 : trimSpace c = ""
      · simp only [h2, if_pos rfl]
        exact ih hs gs n1 n0
      · simp only [if_neg h2]
        by_cases h3 : hasSuffixS filePath notesFileSuffix
        · simp only [h3, if_true]
          exact ih hs gs _ _
        · simp only [h3, Bool.false_eq_true, if_false]
          cases hsrt : sortEntries eventsTab delTab parseHead filePath (splitMans c)
              ⟨hs, gs⟩ with
          | mk r e =>
            cases e with
            | none =>
              simp only [hsrt]
              exact ih r.hooks r.generic n1 n0
            | some err => simp [hsrt]

/-- C10: the two `Partition` versions (`part_001`, notes as a chart-keyed map;
`part_000`, notes as the single parent-chart string), run over the same files
in the same iteration order with the same collaborators, return identical hook
sequences, identical generic-manifest sequences and identical error outcomes —
they differ only in the notes component. -/
theorem c10_partition_versions_agree {E D : Type} (eventsTab : String → Option E)
    (delTab : String → Option D) (parseHead : String → Option SimpleHead)
    (splitMans : String → List String) (kindPrio : String → Nat)
    (order : SortOrder) (files : List (String × String)) :
    (Partition eventsTab delTab parseHead splitMans kindPrio order files).hooks =
      (PartitionS eventsTab delTab parseHead splitMans kindPrio order files).hooks ∧
    (Partition eventsTab delTab parseHead splitMans kindPrio order files).generic =
      (PartitionS eventsTab delTab parseHead splitMans kindPrio order files).generic ∧
    (Partition eventsTab delTab parseHead splitMans kindPrio order files).err =
      (PartitionS eventsTab delTab parseHead splitMans kindPrio order files).err := by
  obtain ⟨ha, hg, he⟩ := partitionAux_agree eventsTab delTab parseHead splitMans
    files [] [] [] ""
  unfold Partition PartitionS
  cases hx1 : partitionAux eventsTab delTab parseHead splitMans files ⟨[], [], []⟩ with
  | mk a1 e1 =>
    cases hx0 : partitionAuxS eventsTab delTab parseHead splitMans files ([], [], "") with
    | mk a0 e0 =>
      obtain ⟨hs0, gs0, ns0⟩ := a0
      rw [hx1, hx0] at ha hg he
      simp only at ha hg he
      subst he
      cases e1 with
      | none => simp [ha, hg]
      | some err => simp [ha, hg]

/-! ## Claim C6 -/

theorem parsesGeneric_elim {parseHead : String → Option SimpleHead} {c : String}
    (h : parsesGeneric parseHead c = true) :
    ∃ hd, parseHead c = some hd ∧ annoLookup hd hookAnno = none := by
  unfold parsesGeneric at h
  cases hp : parseHead c with
  | none => rw [hp] at h; simp at h
  | some hd =>
    rw [hp] at h
    simp only [decide_eq_true_eq] at h
    exact ⟨hd, rfl, h⟩

/-- C6: flattening generic manifests with `FlattenManifests` and re-partitioning
the flattened text as one synthetic file yields generic manifests whose
contents are exactly the original contents (as a multiset — the kind sorter may
permute), no hooks, and no error; the names change to the synthetic path.
Hypotheses: the documents are cut apart at the separators `FlattenManifests`
wrote, so no content may itself contain a `"---"` line and no name a newline
(`splittable`); each content still parses to a hook-free head; and the
synthetic path is not skipped as a partial or claimed as a notes file. -/
theorem c6_flatten_partition_round_trip {E D : Type} (eventsTab : String → Option E)
    (delTab : String → Option D) (parseHead : String → Option SimpleHead)
    (kindPrio : String → Nat) (order : SortOrder) (synthPath : String)
    (ms : List Manifest)
    (hms : ∀ m ∈ ms, splittable m ∧ parsesGeneric parseHead m.content = true)
    (hp1 : hasPrefixS (pathBase synthPath) "_" = false)
    (hp2 : hasSuffixS synthPath notesFileSuffix = false) :
    ((Partition eventsTab delTab parseHead splitManifests kindPrio order
        [(synthPath, FlattenManifests ms)]).generic.map (fun g => g.content)).Perm
      (ms.map (fun m => m.content)) ∧
    (Partition eventsTab delTab parseHead splitManifests kindPrio order
        [(synthPath, FlattenManifests ms)]).hooks = [] ∧
    (Partition eventsTab delTab parseHead splitManifests kindPrio order
        [(synthPath, FlattenManifests ms)]).err = none := by
  have hsk : sortByKind kindPrio order ([] : List Manifest) = [] := by
    cases order <;> rfl
  cases ms with
  | nil =>
    have hempty : trimSpace (FlattenManifests []) = "" := rfl
    have haux : Partition eventsTab delTab parseHead splitManifests kindPrio order
        [(synthPath, FlattenManifests [])] = ⟨[], [], [], none⟩ := by
      unfold Partition
      simp only [partitionAux, hp1, Bool.false_eq_true, if_false, hempty, if_pos rfl]
      simp [hsk]
    rw [haux]
    simp
  | cons m0 rest =>
    have hne : trimSpace (FlattenManifests (m0 :: rest)) ≠ "" := by
      simp only [ne_eq, trimSpace_eq_empty_iff, flattenManifests_data]
      intro hnil
      have hmem : '-' ∈ flatData (m0 :: rest) := by
        simp [flatData, chunkData, dashesLine]
      have := (trimChars_eq_nil_iff _).mp hnil '-' hmem
      simp [goIsSpace] at this
    have hsm := splitManifests_flattenManifests (m0 :: rest)
      (fun m hm => (hms m hm).1)
    have hconv : ∀ c ∈ (m0 :: rest).map (fun m => m.content),
        ∃ hd, parseHead c = some hd ∧ annoLookup hd hookAnno = none := by
      intro c hc
      obtain ⟨m, hm, rfl⟩ := List.mem_map.mp hc
      exact parsesGeneric_elim (hms m hm).2
    have haux : partitionAux eventsTab delTab parseHead splitManifests
        [(synthPath, FlattenManifests (m0 :: rest))] ⟨[], [], []⟩ =
        ({ hooks := [],
           generic := ((m0 :: rest).map (fun m => m.content)).map (fun c =>
             ⟨synthPath, c, (parseHead c).getD ⟨"", "", none⟩⟩),
           notes := [] }, none) := by
      simp only [partitionAux, hp1, Bool.false_eq_true, if_false, if_neg hne, hp2]
      rw [hsm, sortEntries_all_generic eventsTab delTab parseHead synthPath _ _ hconv]
      simp [partitionAux]
    unfold Partition
    rw [haux]
    refine ⟨?_, rfl, rfl⟩
    have hperm := (sortByKind_perm kindPrio order
      (((m0 :: rest).map (fun m => m.content)).map (fun c =>
        (⟨synthPath, c, (parseHead c).getD ⟨"", "", none⟩⟩ : Manifest)))).map
      (fun g => g.content)
    refine hperm.trans ?_
    rw [List.map_map, List.map_map]
    exact List.Perm.refl _

/-- C6 witness: two concrete generic manifests survive the flatten/partition
round trip with contents intact (and, evaluated concretely, in this case even
in order). -/
theorem c6_witness :
    (((Partition fixEvents fixDel fixParse splitManifests (fun _ => 0)
        SortOrder.installOrder
        [("generated.yaml", FlattenManifests
          [⟨"a.yaml", "plain", fixHeadPlain⟩,
           ⟨"b.yaml", "otheranno", fixHeadOtherAnno⟩])]).generic.map
        (fun g => g.content)).Perm
      (([⟨"a.yaml", "plain", fixHeadPlain⟩,
         ⟨"b.yaml", "otheranno", fixHeadOtherAnno⟩] : List Manifest).map
        (fun m => m.content))) ∧
    FlattenManifests [⟨"a.yaml", "plain", fixHeadPlain⟩,
        ⟨"b.yaml", "otheranno", fixHeadOtherAnno⟩] =
      "\n---\n# Source: a.yaml\nplain\n---\n# Source: b.yaml\notheranno" ∧
    splitManifests "\n---\n# Source: a.yaml\nplain\n---\n# Source: b.yaml\notheranno" =
      ["plain", "otheranno"] := by
  refine ⟨(c6_flatten_partition_round_trip fixEvents fixDel fixParse (fun _ => 0)
      SortOrder.installOrder "generated.yaml"
      [⟨"a.yaml", "plain", fixHeadPlain⟩, ⟨"b.yaml", "otheranno", fixHeadOtherAnno⟩]
      (by decide) (by decide) (by decide)).1, by decide, by decide⟩
